import Mathlib

/-
Verification of the dependency-patch engine of the repodata-hotfixes
scripts (main.py, with the rename helper shared by r.py and pro.py).

Modelling conventions of this shallow embedding:
  * a Python string is a list of characters (`Str`); the order on `List Char`
    is lexicographic by code point, exactly as Python compares strings;
  * a Python list is a Lean `List`; in-place mutation is modelled by
    returning the new list;
  * a raised exception is modelled by `Except.error`;
  * a Python dict keyed by strings (the repodata index) is an association
    list `List (Str × PackageRecord)`;
  * the module-level rule tables that the engine merely reads
    (REVOKED, REMOVALS, NP_BASE_LOOSE_PIN) are parameters of type
    `Str → List Str` modelling `TABLE.get(key, [])`;
  * the body of `patch_record_in_place` (the catalog of hundreds of
    package-specific rules, each one a guarded no-op when its name/version
    predicate does not match) is a parameter `inPlace`; `noRuleInPlace`
    below is its action on a record that matches none of the rules.
-/

abbrev Str := List Char

def str (s : String) : Str := s.data

/-- Model of Python str.split() with no argument: split on runs of
whitespace, discarding empty tokens.  The accumulator holds the current
token in reverse. -/
def pySplitGo : Str → Str → List Str
  | acc, [] => if acc.isEmpty then [] else [acc.reverse]
  | acc, c :: rest =>
    if c.isWhitespace then
      if acc.isEmpty then pySplitGo [] rest else acc.reverse :: pySplitGo [] rest
    else pySplitGo (c :: acc) rest

def pySplit (s : Str) : List Str := pySplitGo [] s

def splitCharGo (sep : Char) : Str → Str → List Str
  | acc, [] => [acc.reverse]
  | acc, c :: rest =>
    if c = sep then acc.reverse :: splitCharGo sep [] rest
    else splitCharGo sep (c :: acc) rest

/-- Model of Python str.split(sep) for a one-character separator: empty
tokens are kept. -/
def splitChar (sep : Char) (s : Str) : List Str := splitCharGo sep [] s

/-- Model of Python sep.join(parts). -/
def joinWith (sep : Str) (parts : List Str) : Str := (List.intersperse sep parts).flatten

/-- Model of the Python substring test (needle in haystack). -/
def strContains : Str → Str → Bool
  | [], needle => needle.isEmpty
  | c :: rest, needle => needle.isPrefixOf (c :: rest) || strContains rest needle

/-
The dependency-replace primitive, main.py `replace_dep` (lines 1658-1712).
-/

/-- Outcome codes of replace_dep: inserted is the source code character for
plus, removed is minus, replaced is tilde, unchanged is the equals sign. -/
inductive ReplaceOutcome where
  | inserted
  | removed
  | replaced
  | unchanged
deriving DecidableEq

/-- The removal loop of replace_dep:
for item in old: if item in depends: depends.remove(item); removed = True.
Python list.remove drops the first occurrence only (List.erase); the
removed flag is sticky across iterations. -/
def removeOlds : List Str → List Str → List Str × Bool
  | depends, [] => (depends, false)
  | depends, item :: rest =>
    if item ∈ depends then ((removeOlds (depends.erase item) rest).1, true)
    else removeOlds depends rest

/-- Model of the loop of Python bisect.bisect_left:
while lo < hi: mid = (lo+hi)//2; if a[mid] < x: lo = mid+1 else hi = mid.
The fuel argument only bounds the number of iterations so the function is
structurally recursive; hi - lo strictly decreases at every iteration, so
any fuel larger than the initial hi - lo gives the exact loop result. -/
def bisectLeftGo (a : List Str) (x : Str) : Nat → Nat → Nat → Nat
  | 0, lo, _ => lo
  | fuel + 1, lo, hi =>
    if lo < hi then
      let mid := (lo + hi) / 2
      if a.getD mid [] < x then bisectLeftGo a x fuel (mid + 1) hi
      else bisectLeftGo a x fuel lo mid
    else lo

/-- Model of Python bisect.bisect_left(a, x) with default lo and hi. -/
def bisectLeft (a : List Str) (x : Str) : Nat := bisectLeftGo a x (a.length + 1) 0 a.length

/-- Model of Python bisect.insort_left(a, x): insert x at bisect_left(a, x). -/
def insortLeft (a : List Str) (x : Str) : List Str := a.insertIdx (bisectLeft a x) x

/-- main.py replace_dep(depends, old, new, *, append=False).  The Python
`old` may be a single string or an iterable of strings; the single-string
form is the singleton list here (the source normalises with
`old = [old]`).  The TypeError check comes first, before any mutation. -/
def replace_dep (depends : List Str) (old : List Str) (new : Option Str)
    (append : Bool := false) : Except String (List Str × ReplaceOutcome) :=
  if append ∧ new = none then
    .error "Forbidden to append None to dependencies"
  else
    let rem := removeOlds depends old
    match new with
    | some n =>
      if (rem.2 || append) ∧ n ∉ rem.1 then
        .ok (insortLeft rem.1 n, if rem.2 then .replaced else .inserted)
      else if rem.2 then .ok (rem.1, .removed)
      else .ok (rem.1, .unchanged)
    | none =>
      if rem.2 then .ok (rem.1, .removed) else .ok (rem.1, .unchanged)

/-
Glob matching, a model of the stdlib fnmatch.fnmatch on a POSIX system
(os.path.normcase is the identity there, so matching is case-sensitive),
and main.py is_revoked / is_removed (lines 534-551).
-/

/-- Split a character-class body at its terminating right bracket; none if
the class is unterminated. -/
def scanClass : Str → Option (Str × Str)
  | [] => none
  | c :: rest =>
    if c = ']' then some ([], rest)
    else
      match scanClass rest with
      | none => none
      | some (inside, after) => some (c :: inside, after)

def parseCharClassBody (neg : Bool) (body : Str) : Option (Bool × Str × Str) :=
  match body with
  | ']' :: rest => (scanClass rest).map (fun p => (neg, ']' :: p.1, p.2))
  | _ => (scanClass body).map (fun p => (neg, p.1, p.2))

/-- Parse what follows a left bracket, following fnmatch.translate: a
leading exclamation mark negates the class; a right bracket directly after
the opening (or after the negation) is a literal member; with no closing
bracket there is no class at all. -/
def parseCharClass (ps : Str) : Option (Bool × Str × Str) :=
  match ps with
  | '!' :: body => parseCharClassBody true body
  | _ => parseCharClassBody false ps

/-- Membership in a character class, with dash ranges as in the regex set
fnmatch.translate produces. -/
def classMember (c : Char) : Str → Bool
  | a :: '-' :: b :: rest => (decide (a ≤ c) && decide (c ≤ b)) || classMember c rest
  | a :: rest => (c == a) || classMember c rest
  | [] => false

/-- Case-sensitive glob matching of a name against a pattern with star,
question mark and character classes, modelling fnmatch on POSIX.  Every
recursive call shrinks name.length + pattern.length, so the fuel only
bounds the recursion depth to keep the function structurally recursive;
any fuel above that sum gives the full matcher. -/
def globMatchFuel : Nat → Str → Str → Bool
  | 0, _, _ => false
  | _ + 1, [], [] => true
  | fuel + 1, [], p :: ps => if p = '*' then globMatchFuel fuel [] ps else false
  | _ + 1, _ :: _, [] => false
  | fuel + 1, c :: cs, p :: ps =>
    if p = '*' then globMatchFuel fuel (c :: cs) ps || globMatchFuel fuel cs (p :: ps)
    else if p = '[' then
      match parseCharClass ps with
      | some (neg, cls, after) => (classMember c cls != neg) && globMatchFuel fuel cs after
      | none => (c == '[') && globMatchFuel fuel cs ps
    else if p = '?' then globMatchFuel fuel cs ps
    else (c == p) && globMatchFuel fuel cs ps

def globMatch (name pat : Str) : Bool :=
  globMatchFuel (name.length + pat.length + 1) name pat

/-- Model of fnmatch.fnmatch(name, pat) on POSIX: case-sensitive. -/
def fnmatchB (name pat : Str) : Bool := globMatch name pat

/-- main.py is_revoked(fn, subdir): scan REVOKED.get(subdir, []) and then
REVOKED.get("any", []), returning True on the first glob match. -/
def is_revoked (REVOKED : Str → List Str) (fn subdir : Str) : Bool :=
  (REVOKED subdir).any (fun rev => fnmatchB fn rev)
    || (REVOKED (str "any")).any (fun rev => fnmatchB fn rev)

/-- main.py is_removed(fn, subdir), identical to is_revoked over REMOVALS. -/
def is_removed (REMOVALS : Str → List Str) (fn subdir : Str) : Bool :=
  (REMOVALS subdir).any (fun rev => fnmatchB fn rev)
    || (REMOVALS (str "any")).any (fun rev => fnmatchB fn rev)

/-
Records and the per-subdir patch pass, main.py lines 356-396, 438-465,
508-531 and 554-587.
-/

/-- One package build record; the fields the engine reads or diffs.
Optional fields model key absence in the Python dict.  The Python keys
"namespace" and "type" are Lean keywords, hence the _field suffix. -/
structure PackageRecord where
  name : Str
  version : Str
  build : Str
  build_number : Nat
  depends : List Str
  constrains : Option (List Str) := none
  features : Option Str := none
  track_features : Option Str := none
  namespace_in_name : Option Bool := none
  license_family : Option Str := none
  app_entry : Option Str := none
  app_type : Option Str := none
  timestamp : Option Nat := none
  subdir : Option Str := none
  namespace_field : Option Str := none
  type_field : Option Str := none
deriving DecidableEq

instance : Inhabited PackageRecord :=
  ⟨{ name := [], version := [], build := [], build_number := 0, depends := [] }⟩

/-- A value stored in a patch-instruction entry. -/
inductive FieldVal where
  | s (v : Str)
  | sl (v : List Str)
  | b (v : Bool)
  | n (v : Nat)
deriving DecidableEq

/-- record.get(key) for the keys the pass reads and diffs. -/
def getField (r : PackageRecord) (key : String) : Option FieldVal :=
  if key = "app_entry" then r.app_entry.map .s
  else if key = "app_type" then r.app_type.map .s
  else if key = "constrains" then r.constrains.map .sl
  else if key = "depends" then some (.sl r.depends)
  else if key = "features" then r.features.map .s
  else if key = "namespace" then r.namespace_field.map .s
  else if key = "license_family" then r.license_family.map .s
  else if key = "subdir" then r.subdir.map .s
  else if key = "track_features" then r.track_features.map .s
  else if key = "type" then r.type_field.map .s
  else if key = "namespace_in_name" then r.namespace_in_name.map .b
  else if key = "timestamp" then r.timestamp.map .n
  else if key = "build_number" then some (.n r.build_number)
  else none

/-- The keys_to_check list of patch_record. -/
def keys_to_check : List String :=
  ["app_entry", "app_type", "constrains", "depends", "features", "namespace",
   "license_family", "subdir", "track_features", "type"]

/-- One assignment instructions["packages"][fn][key] = value. -/
abbrev PatchWrite := Str × String × Option FieldVal

/-- The namespace_in_name_set literal of _apply_namespace_overrides. -/
def namespace_in_name_set : List Str :=
  [str "python-crfsuite", str "python-daemon", str "python-dateutil",
   str "python-editor", str "python-engineio", str "python-gflags",
   str "python-ldap", str "python-memcached", str "python-ntlm",
   str "python-rapidjson", str "python-slugify", str "python-snappy",
   str "python-socketio", str "python-sybase", str "python-utils"]

/-- The namespace_overrides literal of _apply_namespace_overrides. -/
def namespace_overrides : List (Str × Str) :=
  [(str "boost", str "python"), (str "ninja", str "global"),
   (str "numpy-devel", str "python"), (str "texlive-core", str "global"),
   (str "keras", str "python"), (str "keras-gpu", str "python"),
   (str "git", str "global"),
   (str "python-javapackages-cos7-ppc64le", str "global"),
   (str "anaconda", str "python"), (str "conda-env", str "python"),
   (str "tensorflow", str "python"), (str "tensorflow-gpu", str "python"),
   (str "xcb-proto", str "global"), (str "mxnet", str "python")]

/-- main.py _apply_namespace_overrides(fn, record, instructions), as the
list of writes it performs.  Python `not record.get('namespace_in_name')`
is falsity of an absent or False value; `namespace_overrides.get(name)`
is truthy exactly when the name is a key (every value is non-empty). -/
def _apply_namespace_overrides (fn : Str) (record : PackageRecord) : List PatchWrite :=
  (if record.name ∈ namespace_in_name_set ∧ record.namespace_in_name ≠ some true then
    [(fn, "namespace_in_name", some (.b true))]
   else [])
  ++ (match namespace_overrides.lookup record.name with
      | some v => [(fn, "namespace", some (.s v))]
      | none => [])

/-- main.py _fix_numpy_base_constrains(record, index, instructions, subdir),
as the optional write (base filename, constrains value) it performs on
instructions["packages"].  The KeyError of index[base_pkg_fn] is the
lookup returning none; the ValueError of the three-way unpacking of
base_pkg.split() is any token count other than three. -/
def _fix_numpy_base_constrains (record : PackageRecord)
    (index : List (Str × PackageRecord)) (subdir : Str)
    (NP_BASE_LOOSE_PIN : Str → List Str) : Option (Str × List Str) :=
  match (record.depends.filter (fun d => (str "numpy-base").isPrefixOf d)).head? with
  | none => none
  | some base_pkg =>
    match pySplit base_pkg with
    | [nm, ver, build_str] =>
      let base_pkg_fn : Str := nm ++ str "-" ++ ver ++ str "-" ++ build_str ++ str ".tar.bz2"
      match index.lookup base_pkg_fn with
      | none => none
      | some baseRec =>
        if baseRec.constrains.isSome then none
        else if base_pkg_fn ∈ NP_BASE_LOOSE_PIN subdir then
          some (base_pkg_fn, [record.name ++ str " " ++ record.version])
        else
          some (base_pkg_fn, [record.name ++ str " " ++ record.version ++ str " " ++ record.build])
    | _ => none

/-- The diff loop of patch_record: one write per key of keys_to_check whose
patched value differs from the deep-copied original. -/
def patch_record_diff (fn : Str) (original patched : PackageRecord) : List PatchWrite :=
  keys_to_check.filterMap (fun key =>
    if getField patched key = getField original key then none
    else some (fn, key, getField patched key))

/-- The one-off writes at the end of patch_record: the numpy-base
constraint, the numba-0.36.1 timestamp, and the linux-ppc64le
blas-1.0-openblas build_number. -/
def patch_record_oneoffs (fn : Str) (patched : PackageRecord) (subdir : Str)
    (index : List (Str × PackageRecord)) (loosePin : Str → List Str) : List PatchWrite :=
  (if patched.name = str "numpy" then
     match _fix_numpy_base_constrains patched index subdir loosePin with
     | some (bfn, cs) => [(bfn, "constrains", some (.sl cs))]
     | none => []
   else [])
  ++ (if (str "numba-0.36.1").isPrefixOf fn ∧ patched.timestamp ≠ some 1512604800000 then
       [(fn, "timestamp", some (.n 1512604800000))]
      else [])
  ++ (if subdir = str "linux-ppc64le" ∧ fn = str "blas-1.0-openblas.tar.bz2" then
       [(fn, "build_number", some (.n 7))]
      else [])

/-- Replace the value stored under fn (the in-place mutation of the shared
index dict). -/
def updateIndex (index : List (Str × PackageRecord)) (fn : Str) (r : PackageRecord) :
    List (Str × PackageRecord) :=
  index.map (fun e => if e.1 = fn then (e.1, r) else e)

/-- main.py patch_record(fn, record, subdir, instructions, index): deep-copy,
patch in place, diff the checked keys, then the one-off writes.  The rule
catalog patch_record_in_place is the parameter inPlace; an exception it
raises propagates (there is no try/except around the call). -/
def patch_record (inPlace : Str → PackageRecord → Str → Except String PackageRecord)
    (loosePin : Str → List Str) (fn : Str) (record : PackageRecord) (subdir : Str)
    (index : List (Str × PackageRecord)) : Except String (List PatchWrite × PackageRecord) :=
  match inPlace fn record subdir with
  | .error e => .error e
  | .ok patched =>
    .ok (patch_record_diff fn record patched
          ++ patch_record_oneoffs fn patched subdir (updateIndex index fn patched) loosePin,
         patched)

/-- Stable ascending insertion, modelling Python list.sort() on strings. -/
def insertSortedStr (x : Str) : List Str → List Str
  | [] => [x]
  | y :: ys => if x ≤ y then x :: y :: ys else y :: insertSortedStr x ys

def sortStrList (l : List Str) : List Str := l.foldr insertSortedStr []

/-- The per-subdir output of _patch_repodata.  packages is the ordered log
of writes into the defaultdict (later writes to the same fn/key win);
external_dependencies records whether the noarch table was attached. -/
structure PatchInstructions where
  packages : List PatchWrite
  revoke : List Str
  remove : List Str
  external_dependencies : Bool
deriving DecidableEq

/-- The record loop of _patch_repodata: revoke and remove tests, namespace
overrides on the still-unpatched record, then patch_record; the shared
index sees each record's in-place patch as soon as it happens. -/
def patchRepodataGo (inPlace : Str → PackageRecord → Str → Except String PackageRecord)
    (REVOKED REMOVALS loosePin : Str → List Str) (subdir : Str) :
    List (Str × PackageRecord) → List (Str × PackageRecord) →
    Except String (List PatchWrite × List Str × List Str)
  | _, [] => .ok ([], [], [])
  | cur, (fn, record) :: rest =>
    let rv := if is_revoked REVOKED fn subdir then [fn] else []
    let rm := if is_removed REMOVALS fn subdir then [fn] else []
    let nsW := _apply_namespace_overrides fn record
    match patch_record inPlace loosePin fn record subdir cur with
    | .error e => .error e
    | .ok (pw, patched) =>
      match patchRepodataGo inPlace REVOKED REMOVALS loosePin subdir
              (updateIndex cur fn patched) rest with
      | .error e => .error e
      | .ok (ws, rvs, rms) => .ok (nsW ++ pw ++ ws, rv ++ rvs, rm ++ rms)

/-- main.py _patch_repodata(repodata, subdir): run the loop over every
record, then sort the remove and revoke lists. -/
def _patch_repodata (inPlace : Str → PackageRecord → Str → Except String PackageRecord)
    (REVOKED REMOVALS loosePin : Str → List Str)
    (index : List (Str × PackageRecord)) (subdir : Str) : Except String PatchInstructions :=
  match patchRepodataGo inPlace REVOKED REMOVALS loosePin subdir index index with
  | .error e => .error e
  | .ok (ws, rv, rm) => .ok ⟨ws, sortStrList rv, sortStrList rm, subdir == str "noarch"⟩

/-- The action of the patch_record_in_place rule catalog on a record that
none of its rules matches: every rule is a guarded no-op, so the record
comes back unchanged. -/
def noRuleInPlace : Str → PackageRecord → Str → Except String PackageRecord :=
  fun _ r _ => .ok r

/-
The two explicit raise sites of the patching engine: the anaconda
5.3.0 / 5.3.1 mkl block of patch_record_in_place (main.py 959-967) and
_fix_cudnn_depends (main.py 468-505).
-/

/-- The comprehension
[i for i in depends if i.split()[0] == "mkl" and "2019" in i.split()[1]]:
an empty token list or a one-token mkl entry raises IndexError. -/
def mklEntries : List Str → Except String (List Str)
  | [] => .ok []
  | d :: rest =>
    match pySplit d with
    | [] => .error "IndexError: list index out of range"
    | t0 :: ts =>
      if t0 = str "mkl" then
        match ts with
        | [] => .error "IndexError: list index out of range"
        | t1 :: _ =>
          match mklEntries rest with
          | .error e => .error e
          | .ok r => .ok (if strContains t1 (str "2019") then d :: r else r)
      else mklEntries rest

/-- The anaconda 5.3.0 / 5.3.1 mkl block of patch_record_in_place: with
exactly one mkl-2019 entry it is removed and "mkl 2018.0.3 1" appended;
with more than one the block raises. -/
def anaconda_mkl_fix (name version : Str) (depends : List Str) : Except String (List Str) :=
  if name = str "anaconda" ∧ (version = str "5.3.0" ∨ version = str "5.3.1") then
    match mklEntries depends with
    | .error e => .error e
    | .ok mkl =>
      if mkl.length = 1 then .ok (depends.erase (mkl.headD []) ++ [str "mkl 2018.0.3 1"])
      else if mkl.length > 1 then .error "Found multiple mkl entries, expected only 1."
      else .ok depends
  else .ok depends

/-- The loop of _fix_cudnn_depends leaves its variable holding the last
matching dependency; an absent match leaves the Python local unbound. -/
def lastStartingWith (p : Str) (depends : List Str) : Option Str :=
  (depends.filter (fun d => p.isPrefixOf d)).getLast?

/-- depends[depends.index(o)] = v: replace the first occurrence of o. -/
def replaceFirst : List Str → Str → Str → List Str
  | [], _, _ => []
  | a :: rest, o, v => if a = o then v :: rest else a :: replaceFirst rest o v

/-- main.py _fix_cudnn_depends(depends, subdir).  The unbound-local
NameErrors of the source (no cudnn entry at all; a seven-star entry with
no cudatoolkit entry on a non-Windows subdir) are errors here too; the
final elif chain mirrors the source order, ending in the explicit raise
of "unknown cudnn depedency" (spelling as in the source). -/
def _fix_cudnn_depends (depends : List Str) (subdir : Str) : Except String (List Str) :=
  match lastStartingWith (str "cudnn") depends with
  | none => .error "NameError: original_cudnn_depend is not defined"
  | some o =>
    let seven := (str "cudnn 7*").isPrefixOf o || (str "cudnn 7.*").isPrefixOf o
    if (str "win-").isPrefixOf subdir then
      .ok (replaceFirst depends o (str "cudnn >=7.1.4,<8.0a0"))
    else if (str "cudnn 7.0").isPrefixOf o then
      .ok (replaceFirst depends o (str "cudnn >=7.0.0,<=8.0a0"))
    else if (str "cudnn 7.1.*").isPrefixOf o then
      .ok (replaceFirst depends o (str "cudnn >=7.1.0,<=8.0a0"))
    else if (str "cudnn 7.2.*").isPrefixOf o then
      .ok (replaceFirst depends o (str "cudnn >=7.2.0,<=8.0a0"))
    else if seven then
      match lastStartingWith (str "cudatoolkit") depends with
      | none => .error "NameError: cudatoolkit_depend is not defined"
      | some c =>
        if (str "cudatoolkit 8.0").isPrefixOf c then
          .ok (replaceFirst depends o (str "cudnn >=7.0.5,<=8.0a0"))
        else if (str "cudatoolkit 9.0").isPrefixOf c then
          .ok (replaceFirst depends o (str "cudnn >=7.1.2,<=8.0a0"))
        else if (str "cudatoolkit 9.2").isPrefixOf c then
          .ok (replaceFirst depends o (str "cudnn >=7.2.1,<=8.0a0"))
        else if o = str "cudnn 7.3.*" then
          .ok (replaceFirst depends o (str "cudnn >=7.3.0,<=8.0a0"))
        else .error "unknown cudnn depedency"
    else if o = str "cudnn 7.3.*" then
      .ok (replaceFirst depends o (str "cudnn >=7.3.0,<=8.0a0"))
    else .error "unknown cudnn depedency"

/-
The rename helper closed over instructions in r.py _patch_repodata
(lines 238-248) and pro.py (lines 99-109); the Bool records whether
instructions["packages"][fn]["depends"] was written.
-/

/-- The base dependency list of the repo test suite and of the spec
scenarios (tests/test_replace_dep.py). -/
def scenarioDepends : List Str :=
  [str "anaconda-client >=1.11.1", str "attrs >=22.2.0", str "conda >=23.1.0",
   str "pytest >=7.2.2", str "zstandard >=0.20.0"]

/-- next((q for q, dep in enumerate(depends) if p(dep)), None). -/
def firstMatchIdx (p : Str → Bool) : List Str → Option Nat
  | [] => none
  | d :: rest => if p d then some 0 else (firstMatchIdx p rest).map (· + 1)

/-- rename_dependency(fn, record, old_name, new_name) of r.py and pro.py.
The source guard is `if dep_idx:`, Python truthiness, so both None and
the integer 0 skip the rename. -/
def rename_dependency (depends : List Str) (old_name new_name : Str) : List Str × Bool :=
  match firstMatchIdx (fun dep => (splitChar ' ' dep).headD [] == old_name) depends with
  | some dep_idx =>
    if dep_idx ≠ 0 then
      let parts := splitChar ' ' (depends.getD dep_idx [])
      let remainder := if parts.length > 1 then str " " ++ joinWith (str " ") parts.tail else []
      (depends.set dep_idx (new_name ++ remainder), true)
    else (depends, false)
  | none => (depends, false)

/-
Lemmas about the removal loop of replace_dep.
-/

theorem removeOlds_sublist : ∀ (old depends : List Str), ((removeOlds depends old).1).Sublist depends
  | [], _ => List.Sublist.refl _
  | item :: rest, d => by
    by_cases h : item ∈ d
    · simp only [removeOlds, if_pos h]
      exact (removeOlds_sublist rest (d.erase item)).trans (List.erase_sublist item d)
    · simp only [removeOlds, if_neg h]
      exact removeOlds_sublist rest d

theorem removeOlds_flag_iff : ∀ (old depends : List Str),
    ((removeOlds depends old).2 = true ↔ ∃ o ∈ old, o ∈ depends)
  | [], d => by simp [removeOlds]
  | item :: rest, d => by
    by_cases h : item ∈ d
    · simp only [removeOlds, if_pos h]
      constructor
      · intro _
        exact ⟨item, List.mem_cons_self _ _, h⟩
      · intro _
        trivial
    · simp only [removeOlds, if_neg h]
      rw [removeOlds_flag_iff rest d]
      constructor
      · rintro ⟨o, ho, hd⟩
        exact ⟨o, List.mem_cons_of_mem _ ho, hd⟩
      · rintro ⟨o, ho, hd⟩
        rcases List.mem_cons.mp ho with rfl | ho'
        · exact absurd hd h
        · exact ⟨o, ho', hd⟩

theorem removeOlds_count_of_not_mem : ∀ (old depends : List Str) {x : Str}, x ∉ old →
    ((removeOlds depends old).1).count x = depends.count x
  | [], _, _, _ => rfl
  | item :: rest, d, x, hx => by
    have hxi : x ≠ item := fun h => hx (h ▸ List.mem_cons_self _ _)
    have hxr : x ∉ rest := fun h => hx (List.mem_cons_of_mem _ h)
    by_cases h : item ∈ d
    · simp only [removeOlds, if_pos h]
      rw [removeOlds_count_of_not_mem rest _ hxr, List.count_erase_of_ne hxi]
    · simp only [removeOlds, if_neg h]
      exact removeOlds_count_of_not_mem rest d hxr

theorem removeOlds_count_le : ∀ (old depends : List Str) (x : Str),
    ((removeOlds depends old).1).count x ≤ depends.count x
  | [], _, _ => le_refl _
  | item :: rest, d, x => by
    by_cases h : item ∈ d
    · simp only [removeOlds, if_pos h]
      refine (removeOlds_count_le rest _ x).trans ?_
      by_cases hxi : x = item
      · subst hxi
        rw [List.count_erase_self]
        omega
      · rw [List.count_erase_of_ne hxi]
    · simp only [removeOlds, if_neg h]
      exact removeOlds_count_le rest d x

theorem removeOlds_count_eq_zero : ∀ (old depends : List Str) {x : Str}, x ∈ old →
    depends.count x ≤ 1 → ((removeOlds depends old).1).count x = 0
  | [], _, x, hx, _ => absurd hx (List.not_mem_nil x)
  | item :: rest, d, x, hx, hc => by
    by_cases hxi : x = item
    · subst hxi
      by_cases h : x ∈ d
      · simp only [removeOlds, if_pos h]
        have h1 : (d.erase x).count x = d.count x - 1 := List.count_erase_self x d
        have h2 := removeOlds_count_le rest (d.erase x) x
        have h3 : 0 < d.count x := List.count_pos_iff.mpr h
        omega
      · simp only [removeOlds, if_neg h]
        have h0 : d.count x = 0 := List.count_eq_zero.mpr h
        have := removeOlds_count_le rest d x
        omega
    · have hxr : x ∈ rest := by
        rcases List.mem_cons.mp hx with h | h
        · exact absurd h hxi
        · exact h
      by_cases h : item ∈ d
      · simp only [removeOlds, if_pos h]
        refine removeOlds_count_eq_zero rest _ hxr ?_
        rw [List.count_erase_of_ne hxi]
        exact hc
      · simp only [removeOlds, if_neg h]
        exact removeOlds_count_eq_zero rest d hxr hc

theorem removeOlds_not_mem (old depends : List Str) {x : Str} (hx : x ∈ old)
    (hc : depends.count x ≤ 1) : x ∉ (removeOlds depends old).1 :=
  List.count_eq_zero.mp (removeOlds_count_eq_zero old depends hx hc)

theorem removeOlds_count_nodup : ∀ (old depends : List Str) {o : Str}, old.Nodup → o ∈ old →
    ((removeOlds depends old).1).count o = depends.count o - 1
  | [], _, o, _, ho => absurd ho (List.not_mem_nil o)
  | item :: rest, d, o, hnd, ho => by
    have hir : item ∉ rest := (List.nodup_cons.mp hnd).1
    have hndr : rest.Nodup := (List.nodup_cons.mp hnd).2
    by_cases hoi : o = item
    · subst hoi
      by_cases h : o ∈ d
      · simp only [removeOlds, if_pos h]
        rw [removeOlds_count_of_not_mem rest _ hir, List.count_erase_self]
      · simp only [removeOlds, if_neg h]
        rw [removeOlds_count_of_not_mem rest _ hir]
        have h0 : d.count o = 0 := List.count_eq_zero.mpr h
        omega
    · have hor : o ∈ rest := by
        rcases List.mem_cons.mp ho with h | h
        · exact absurd h hoi
        · exact h
      by_cases h : item ∈ d
      · simp only [removeOlds, if_pos h]
        rw [removeOlds_count_nodup rest _ hndr hor, List.count_erase_of_ne hoi]
      · simp only [removeOlds, if_neg h]
        exact removeOlds_count_nodup rest d hndr hor

theorem removeOlds_eq_self : ∀ (old depends : List Str), (∀ o ∈ old, o ∉ depends) →
    removeOlds depends old = (depends, false)
  | [], _, _ => rfl
  | item :: rest, d, h => by
    have hi : item ∉ d := h item (List.mem_cons_self _ _)
    simp only [removeOlds, if_neg hi]
    exact removeOlds_eq_self rest d (fun o ho => h o (List.mem_cons_of_mem _ ho))

theorem removeOlds_single : ∀ (old depends : List Str) {v : Str}, v ∈ old →
    (∀ o ∈ old, o ≠ v → o ∉ depends) → depends.count v = 1 →
    removeOlds depends old = (depends.erase v, true)
  | [], _, v, hv, _, _ => absurd hv (List.not_mem_nil v)
  | item :: rest, d, v, hv, habs, hc => by
    by_cases hiv : item = v
    · subst hiv
      have hmem : item ∈ d := List.count_pos_iff.mp (by omega)
      simp only [removeOlds, if_pos hmem]
      have hrest : removeOlds (d.erase item) rest = (d.erase item, false) := by
        apply removeOlds_eq_self
        intro o ho
        by_cases hov : o = item
        · subst hov
          have : (d.erase o).count o = 0 := by
            rw [List.count_erase_self]
            omega
          exact List.count_eq_zero.mp this
        · intro hmem2
          exact habs o (List.mem_cons_of_mem _ ho) hov (List.Sublist.mem hmem2 (List.erase_sublist _ _))
      rw [hrest]
    · have hvd : v ∈ rest := by
        rcases List.mem_cons.mp hv with h | h
        · exact absurd h.symm hiv
        · exact h
      have hid : item ∉ d := habs item (List.mem_cons_self _ _) hiv
      simp only [removeOlds, if_neg hid]
      exact removeOlds_single rest d hvd (fun o ho => habs o (List.mem_cons_of_mem _ ho)) hc

/-
Lemmas about the sorted-insert of replace_dep.
-/

theorem bisectLeftGo_bounds (a : List Str) (x : Str) : ∀ (fuel lo hi : Nat), lo ≤ hi →
    lo ≤ bisectLeftGo a x fuel lo hi ∧ bisectLeftGo a x fuel lo hi ≤ hi
  | 0, lo, _, h => ⟨le_refl lo, h⟩
  | fuel + 1, lo, hi, h => by
    simp only [bisectLeftGo]
    by_cases hlh : lo < hi
    · rw [if_pos hlh]
      by_cases hx : a.getD ((lo + hi) / 2) [] < x
      · rw [if_pos hx]
        obtain ⟨h1, h2⟩ := bisectLeftGo_bounds a x fuel ((lo + hi) / 2 + 1) hi (by omega)
        exact ⟨by omega, h2⟩
      · rw [if_neg hx]
        obtain ⟨h1, h2⟩ := bisectLeftGo_bounds a x fuel lo ((lo + hi) / 2) (by omega)
        exact ⟨h1, by omega⟩
    · rw [if_neg hlh]
      exact ⟨le_refl lo, h⟩

theorem bisectLeft_le_length (a : List Str) (x : Str) : bisectLeft a x ≤ a.length :=
  (bisectLeftGo_bounds a x (a.length + 1) 0 a.length (Nat.zero_le _)).2

theorem insortLeft_perm (a : List Str) (x : Str) : (insortLeft a x).Perm (x :: a) :=
  List.perm_insertIdx x a (bisectLeft_le_length a x)

theorem insortLeft_mem (y : Str) (a : List Str) (x : Str) :
    y ∈ insortLeft a x ↔ y = x ∨ y ∈ a :=
  List.mem_insertIdx (bisectLeft_le_length a x)

theorem insortLeft_length (a : List Str) (x : Str) :
    (insortLeft a x).length = a.length + 1 :=
  List.length_insertIdx _ _ (bisectLeft_le_length a x)

theorem insertIdx_count (x y : Str) : ∀ (p : Nat) (l : List Str), p ≤ l.length →
    (l.insertIdx p x).count y = (x :: l).count y
  | 0, l, _ => by rw [List.insertIdx_zero]
  | p + 1, [], h => by simp at h
  | p + 1, a :: as, h => by
    have h' : p ≤ as.length := by
      simp only [List.length_cons] at h
      omega
    rw [List.insertIdx_succ_cons]
    simp only [List.count_cons, insertIdx_count x y p as h']
    ring

theorem insortLeft_count (a : List Str) (x y : Str) :
    (insortLeft a x).count y = (x :: a).count y :=
  insertIdx_count x y _ a (bisectLeft_le_length a x)

theorem insertIdx_erase_of_not_mem {x : Str} : ∀ (p : Nat) (l : List Str), x ∉ l →
    (l.insertIdx p x).erase x = l
  | 0, l, _ => by
    rw [List.insertIdx_zero, List.erase_cons_head]
  | p + 1, [], _ => rfl
  | p + 1, a :: as, h => by
    have hax : ¬(a == x) = true := by
      simp only [beq_iff_eq]
      intro e
      exact h (e ▸ List.mem_cons_self a as)
    have hxs : x ∉ as := fun hm => h (List.mem_cons_of_mem _ hm)
    rw [List.insertIdx_succ_cons, List.erase_cons, if_neg hax,
      insertIdx_erase_of_not_mem p as hxs]

theorem insortLeft_erase_of_not_mem (a : List Str) (x : Str) (h : x ∉ a) :
    (insortLeft a x).erase x = a :=
  insertIdx_erase_of_not_mem _ a h

theorem sorted_getElem_le {a : List Str} (hs : List.Sorted (· ≤ ·) a) {i j : Nat}
    (hij : i ≤ j) (hj : j < a.length) (hi : i < a.length) : a[i] ≤ a[j] := by
  rcases Nat.lt_or_ge i j with hlt | hge
  · have := hs.rel_get_of_lt (a := ⟨i, hi⟩) (b := ⟨j, hj⟩) (Fin.mk_lt_mk.mpr hlt)
    simpa [List.get_eq_getElem] using this
  · have hij' : i = j := le_antisymm hij hge
    subst hij'
    exact le_refl _

theorem bisectLeftGo_sorted (a : List Str) (x : Str) (hs : List.Sorted (· ≤ ·) a) :
    ∀ (fuel lo hi : Nat), hi - lo < fuel → hi ≤ a.length →
    (∀ i, ∀ h : i < a.length, i < lo → a[i] < x) →
    (∀ i, ∀ h : i < a.length, hi ≤ i → x ≤ a[i]) →
    (∀ i, ∀ h : i < a.length, i < bisectLeftGo a x fuel lo hi → a[i] < x) ∧
    (∀ i, ∀ h : i < a.length, bisectLeftGo a x fuel lo hi ≤ i → x ≤ a[i])
  | 0, lo, hi, hfuel, _, _, _ => by omega
  | fuel + 1, lo, hi, hfuel, hhi, hbelow, habove => by
    simp only [bisectLeftGo]
    by_cases hlh : lo < hi
    · rw [if_pos hlh]
      have hmlen : (lo + hi) / 2 < a.length := by omega
      by_cases hx : a.getD ((lo + hi) / 2) [] < x
      · rw [if_pos hx]
        rw [List.getD_eq_getElem a [] hmlen] at hx
        refine bisectLeftGo_sorted a x hs fuel ((lo + hi) / 2 + 1) hi (by omega) hhi ?_ habove
        intro i hilen hilo
        rcases Nat.lt_or_ge i ((lo + hi) / 2) with hlt | hge
        · exact lt_of_le_of_lt (sorted_getElem_le hs (le_of_lt hlt) hmlen hilen) hx
        · have : i = (lo + hi) / 2 := by omega
          subst this
          exact hx
      · rw [if_neg hx]
        rw [List.getD_eq_getElem a [] hmlen] at hx
        have hx' : x ≤ a[(lo + hi) / 2] := not_lt.mp hx
        refine bisectLeftGo_sorted a x hs fuel lo ((lo + hi) / 2) (by omega) (by omega) hbelow ?_
        intro i hilen hmi
        exact hx'.trans (sorted_getElem_le hs hmi hilen hmlen)
    · rw [if_neg hlh]
      refine ⟨hbelow, ?_⟩
      intro i hilen hloi
      exact habove i hilen (by omega)

theorem bisectLeft_sorted_spec (a : List Str) (x : Str) (hs : List.Sorted (· ≤ ·) a) :
    (∀ i, ∀ h : i < a.length, i < bisectLeft a x → a[i] < x) ∧
    (∀ i, ∀ h : i < a.length, bisectLeft a x ≤ i → x ≤ a[i]) := by
  refine bisectLeftGo_sorted a x hs (a.length + 1) 0 a.length (by omega) (le_refl _) ?_ ?_
  · intro i _ h
    omega
  · intro i hilen h
    omega

theorem sorted_insertIdx {x : Str} : ∀ (p : Nat) (l : List Str), List.Sorted (· ≤ ·) l →
    p ≤ l.length →
    (∀ i, ∀ h : i < l.length, i < p → l[i] ≤ x) →
    (∀ i, ∀ h : i < l.length, p ≤ i → x ≤ l[i]) →
    List.Sorted (· ≤ ·) (l.insertIdx p x)
  | 0, l, hs, _, _, habove => by
    rw [List.insertIdx_zero, List.sorted_cons]
    refine ⟨?_, hs⟩
    intro b hb
    obtain ⟨i, hi, rfl⟩ := List.mem_iff_getElem.mp hb
    exact habove i hi (Nat.zero_le i)
  | p + 1, [], _, hp, _, _ => by simp at hp
  | p + 1, a :: as, hs, hp, hbelow, habove => by
    have hp' : p ≤ as.length := by
      simp only [List.length_cons] at hp
      omega
    rw [List.insertIdx_succ_cons, List.sorted_cons]
    have hsas := (List.sorted_cons.mp hs).2
    have hsa := (List.sorted_cons.mp hs).1
    constructor
    · intro b hb
      rcases (List.mem_insertIdx hp').mp hb with rfl | hbas
      · exact hbelow 0 (by simp) (Nat.succ_pos p)
      · exact hsa b hbas
    · refine sorted_insertIdx p as hsas hp' ?_ ?_
      · intro i hilen hip
        have := hbelow (i + 1) (by simpa using Nat.succ_lt_succ hilen) (Nat.succ_lt_succ hip)
        simpa using this
      · intro i hilen hpi
        have := habove (i + 1) (by simpa using Nat.succ_lt_succ hilen) (Nat.succ_le_succ hpi)
        simpa using this

theorem insortLeft_sorted (a : List Str) (x : Str) (hs : List.Sorted (· ≤ ·) a) :
    List.Sorted (· ≤ ·) (insortLeft a x) := by
  obtain ⟨h1, h2⟩ := bisectLeft_sorted_spec a x hs
  refine sorted_insertIdx _ a hs (bisectLeft_le_length a x) ?_ h2
  intro i hilen hip
  exact le_of_lt (h1 i hilen hip)

/-
Claim C1: removal behaviour of replace_dep.
-/

/-- C1 counterexample: with duplicate occurrences in depends, only the
first occurrence of an old specifier is removed (list.remove), not every
occurrence as the claim states; the outcome is still the removed class. -/
theorem replace_dep_duplicate_occurrence_remains :
    replace_dep [str "a", str "a"] [str "a"] none false = .ok ([str "a"], .removed) ∧
    str "a" ∈ [str "a"] :=
  ⟨rfl, by decide⟩

/-- C1 (amended): if old is duplicate-free and at least one of its elements
occurs in depends, then replace_dep(depends, old, None) returns the
removed outcome, the result is a sublist of depends in which the count of
every element of old has dropped by exactly one (its first occurrence) and
the count of every other specifier is unchanged. -/
theorem replace_dep_remove_first_occurrences (depends old : List Str)
    (hnd : old.Nodup) (hpres : ∃ o ∈ old, o ∈ depends) :
    ∃ r, replace_dep depends old none false = .ok (r, .removed) ∧
      r.Sublist depends ∧
      (∀ o ∈ old, r.count o = depends.count o - 1) ∧
      (∀ x, x ∉ old → r.count x = depends.count x) := by
  have hflag : (removeOlds depends old).2 = true := (removeOlds_flag_iff old depends).mpr hpres
  refine ⟨(removeOlds depends old).1, ?_, removeOlds_sublist old depends,
    fun o ho => removeOlds_count_nodup old depends hnd ho,
    fun x hx => removeOlds_count_of_not_mem old depends hx⟩
  simp [replace_dep, hflag]

/-- C1 witness: the removal scenario of the spec. -/
theorem replace_dep_remove_first_occurrences_witness :
    ∃ r, replace_dep scenarioDepends [str "pytest >=7.2.2"] none false = .ok (r, .removed) ∧
      r.Sublist scenarioDepends ∧
      (∀ o ∈ [str "pytest >=7.2.2"], r.count o = scenarioDepends.count o - 1) ∧
      (∀ x, x ∉ [str "pytest >=7.2.2"] → r.count x = scenarioDepends.count x) :=
  replace_dep_remove_first_occurrences scenarioDepends _ (by decide) (by decide)

/-
Claim C2: replacement on a sorted list.
-/

/-- C2 counterexample: on the sorted list with a duplicate old specifier
only the first occurrence is removed before the sorted insert, so an
occurrence of old survives the replacement. -/
theorem replace_dep_replace_duplicate_remains :
    replace_dep [str "a", str "a"] [str "a"] (some (str "b")) false
      = .ok ([str "a", str "b"], .replaced) ∧
    str "a" ∈ [str "a", str "b"] :=
  ⟨rfl, by decide⟩

/-- C2 (amended): on a sorted depends with duplicate-free old, at least one
element of old present, and new absent: replace_dep removes the first
occurrence of each present element of old, inserts new at its sorted
position (the result stays sorted and erasing new gives back exactly the
removal result), and returns the replaced outcome. -/
theorem replace_dep_replace_sorted (depends old : List Str) (n : Str)
    (hs : List.Sorted (· ≤ ·) depends) (hnd : old.Nodup)
    (hpres : ∃ o ∈ old, o ∈ depends) (hn : n ∉ depends) :
    ∃ r, replace_dep depends old (some n) false = .ok (r, .replaced) ∧
      List.Sorted (· ≤ ·) r ∧ n ∈ r ∧
      r.erase n = (removeOlds depends old).1 ∧
      r.count n = depends.count n + 1 ∧
      (∀ o ∈ old, o ≠ n → r.count o = depends.count o - 1) ∧
      (∀ x, x ∉ old → x ≠ n → r.count x = depends.count x) := by
  have hflag : (removeOlds depends old).2 = true := (removeOlds_flag_iff old depends).mpr hpres
  have hcnt0 : depends.count n = 0 := List.count_eq_zero.mpr hn
  have hnd1 : n ∉ (removeOlds depends old).1 := by
    have := removeOlds_count_le old depends n
    exact List.count_eq_zero.mp (by omega)
  refine ⟨insortLeft (removeOlds depends old).1 n, ?_, ?_, ?_, ?_, ?_, ?_, ?_⟩
  · simp [replace_dep, hflag, hnd1]
  · exact insortLeft_sorted _ n (List.Pairwise.sublist (removeOlds_sublist old depends) hs)
  · exact (insortLeft_mem n _ n).mpr (Or.inl rfl)
  · exact insortLeft_erase_of_not_mem _ n hnd1
  · rw [insortLeft_count, List.count_cons_self, List.count_eq_zero.mpr hnd1, hcnt0]
  · intro o ho hone
    rw [insortLeft_count, List.count_cons_of_ne hone, removeOlds_count_nodup old depends hnd ho]
  · intro x hxold hxn
    rw [insortLeft_count, List.count_cons_of_ne hxn, removeOlds_count_of_not_mem old depends hxold]

/-- C2 witness: the replacement scenario of the spec. -/
theorem replace_dep_replace_sorted_witness :
    ∃ r, replace_dep scenarioDepends [str "pytest >=7.2.2"] (some (str "pytest >=7.0.0")) false
        = .ok (r, .replaced) ∧
      List.Sorted (· ≤ ·) r ∧ str "pytest >=7.0.0" ∈ r ∧
      r.erase (str "pytest >=7.0.0") = (removeOlds scenarioDepends [str "pytest >=7.2.2"]).1 ∧
      r.count (str "pytest >=7.0.0") = scenarioDepends.count (str "pytest >=7.0.0") + 1 ∧
      (∀ o ∈ [str "pytest >=7.2.2"], o ≠ str "pytest >=7.0.0" →
        r.count o = scenarioDepends.count o - 1) ∧
      (∀ x, x ∉ [str "pytest >=7.2.2"] → x ≠ str "pytest >=7.0.0" →
        r.count x = scenarioDepends.count x) :=
  replace_dep_replace_sorted scenarioDepends _ _ (by decide) (by decide) (by decide) (by decide)

/-
Claim C3: behaviour when no element of old is present.
-/

/-- C3: when no element of old occurs in depends: without append the list
and outcome are unchanged; with append and new absent, new is inserted at
its sorted position (length grows by one, erasing new restores depends,
sortedness is preserved) with the inserted outcome; with append and new
present the list is unchanged with the unchanged outcome. -/
theorem replace_dep_absent_cases :
    (∀ (depends old : List Str) (new : Option Str), (∀ o ∈ old, o ∉ depends) →
      replace_dep depends old new false = .ok (depends, .unchanged)) ∧
    (∀ (depends old : List Str) (n : Str), (∀ o ∈ old, o ∉ depends) → n ∉ depends →
      replace_dep depends old (some n) true = .ok (insortLeft depends n, .inserted) ∧
      (insortLeft depends n).length = depends.length + 1 ∧
      n ∈ insortLeft depends n ∧ (insortLeft depends n).erase n = depends ∧
      (List.Sorted (· ≤ ·) depends → List.Sorted (· ≤ ·) (insortLeft depends n))) ∧
    (∀ (depends old : List Str) (n : Str), (∀ o ∈ old, o ∉ depends) → n ∈ depends →
      replace_dep depends old (some n) true = .ok (depends, .unchanged)) := by
  refine ⟨?_, ?_, ?_⟩
  · intro d old new habs
    have hre := removeOlds_eq_self old d habs
    cases new with
    | none => simp [replace_dep, hre]
    | some n => simp [replace_dep, hre]
  · intro d old n habs hn
    have hre := removeOlds_eq_self old d habs
    exact ⟨by simp [replace_dep, hre, hn], insortLeft_length d n,
      (insortLeft_mem n d n).mpr (Or.inl rfl), insortLeft_erase_of_not_mem d n hn,
      fun hs => insortLeft_sorted d n hs⟩
  · intro d old n habs hn
    have hre := removeOlds_eq_self old d habs
    simp [replace_dep, hre, hn]

/-- C3 witness: the spec scenarios for the three absent-old cases, with the
append scenario inserting django in sorted position. -/
theorem replace_dep_absent_cases_witness :
    replace_dep scenarioDepends [str "flask >=2.2.3"] none false
      = .ok (scenarioDepends, .unchanged) ∧
    (replace_dep scenarioDepends [str "django >=4.1.7"] (some (str "django >=4.0.0")) true
        = .ok (insortLeft scenarioDepends (str "django >=4.0.0"), .inserted) ∧
      (insortLeft scenarioDepends (str "django >=4.0.0")).length = scenarioDepends.length + 1 ∧
      str "django >=4.0.0" ∈ insortLeft scenarioDepends (str "django >=4.0.0") ∧
      (insortLeft scenarioDepends (str "django >=4.0.0")).erase (str "django >=4.0.0")
        = scenarioDepends ∧
      (List.Sorted (· ≤ ·) scenarioDepends →
        List.Sorted (· ≤ ·) (insortLeft scenarioDepends (str "django >=4.0.0")))) ∧
    replace_dep scenarioDepends [str "django >=4.1.7"] (some (str "conda >=23.1.0")) true
      = .ok (scenarioDepends, .unchanged) :=
  ⟨replace_dep_absent_cases.1 scenarioDepends _ none (by decide),
   replace_dep_absent_cases.2.1 scenarioDepends _ _ (by decide) (by decide),
   replace_dep_absent_cases.2.2 scenarioDepends _ _ (by decide) (by decide)⟩

/-
Claim C4: idempotence of replace_dep.
-/

/-- C4 counterexample: with a duplicated specifier in depends the removal
drops one occurrence per application, so a second application changes the
list again. -/
theorem replace_dep_not_idempotent_on_duplicates :
    replace_dep [str "a", str "a"] [str "a"] none false = .ok ([str "a"], .removed) ∧
    replace_dep [str "a"] [str "a"] none false = .ok ([], .removed) ∧
    ([str "a"] : List Str) ≠ [] :=
  ⟨rfl, rfl, by decide⟩

/-- C4 (amended): for any non-raising argument triple, if no element of old
occurs more than once in depends, a second application of the same
replace_dep leaves the list produced by the first application unchanged. -/
theorem replace_dep_idempotent (depends old : List Str) (new : Option Str) (append : Bool)
    (herr : ¬(append = true ∧ new = none))
    (hcount : ∀ o ∈ old, depends.count o ≤ 1) :
    ∃ r s, replace_dep depends old new append = .ok (r, s) ∧
      ∃ t, replace_dep r old new append = .ok (r, t) := by
  have habs1 : ∀ o ∈ old, o ∉ (removeOlds depends old).1 :=
    fun o ho => removeOlds_not_mem old depends ho (hcount o ho)
  have hid1 : removeOlds (removeOlds depends old).1 old = ((removeOlds depends old).1, false) :=
    removeOlds_eq_self old _ habs1
  cases new with
  | none =>
    have hap : append = false := by
      cases append
      · rfl
      · exact absurd ⟨rfl, rfl⟩ herr
    subst hap
    refine ⟨(removeOlds depends old).1,
      if (removeOlds depends old).2 then .removed else .unchanged, ?_, .unchanged, ?_⟩
    · by_cases hf : (removeOlds depends old).2 = true
      · simp [replace_dep, hf]
      · have hf' : (removeOlds depends old).2 = false := by simpa using hf
        simp [replace_dep, hf']
    · simp [replace_dep, hid1]
  | some n =>
    by_cases hc : ((removeOlds depends old).2 || append) = true ∧ n ∉ (removeOlds depends old).1
    · have hfirst : replace_dep depends old (some n) append
          = .ok (insortLeft (removeOlds depends old).1 n,
                 if (removeOlds depends old).2 then .replaced else .inserted) := by
        simp only [replace_dep]
        rw [if_neg (by simp), if_pos hc]
      by_cases hnold : n ∈ old
      · have hcr : (insortLeft (removeOlds depends old).1 n).count n = 1 := by
          rw [insortLeft_count, List.count_cons_self, List.count_eq_zero.mpr hc.2]
        have habs2 : ∀ o ∈ old, o ≠ n → o ∉ insortLeft (removeOlds depends old).1 n := by
          intro o ho hon hmem
          rcases (insortLeft_mem o _ n).mp hmem with rfl | h
          · exact hon rfl
          · exact habs1 o ho h
        have hsingle : removeOlds (insortLeft (removeOlds depends old).1 n) old
            = ((insortLeft (removeOlds depends old).1 n).erase n, true) :=
          removeOlds_single old _ hnold habs2 hcr
        have herase : (insortLeft (removeOlds depends old).1 n).erase n
            = (removeOlds depends old).1 :=
          insortLeft_erase_of_not_mem _ n hc.2
        refine ⟨insortLeft (removeOlds depends old).1 n, _, hfirst, .replaced, ?_⟩
        simp [replace_dep, hsingle, herase, hc.2]
      · have habs2 : ∀ o ∈ old, o ∉ insortLeft (removeOlds depends old).1 n := by
          intro o ho hmem
          rcases (insortLeft_mem o _ n).mp hmem with rfl | h
          · exact hnold ho
          · exact habs1 o ho h
        have hid2 : removeOlds (insortLeft (removeOlds depends old).1 n) old
            = (insortLeft (removeOlds depends old).1 n, false) :=
          removeOlds_eq_self old _ habs2
        have hmemn : n ∈ insortLeft (removeOlds depends old).1 n :=
          (insortLeft_mem n _ n).mpr (Or.inl rfl)
        refine ⟨insortLeft (removeOlds depends old).1 n, _, hfirst, .unchanged, ?_⟩
        simp [replace_dep, hid2, hmemn]
    · have hfirst : ∃ s, replace_dep depends old (some n) append
          = .ok ((removeOlds depends old).1, s) := by
        by_cases hf : (removeOlds depends old).2 = true
        · have hnin : n ∈ (removeOlds depends old).1 := by
            by_contra h
            exact hc ⟨by simp [hf], h⟩
          exact ⟨.removed, by simp [replace_dep, hf, hnin]⟩
        · have hf' : (removeOlds depends old).2 = false := by simpa using hf
          by_cases hap : append = true
          · have hnin : n ∈ (removeOlds depends old).1 := by
              by_contra h
              exact hc ⟨by simp [hap], h⟩
            exact ⟨.unchanged, by simp [replace_dep, hf', hnin, hap]⟩
          · have hap2 : append = false := by simpa using hap
            subst hap2
            exact ⟨.unchanged, by simp [replace_dep, hf']⟩
      obtain ⟨s, hs1⟩ := hfirst
      have hsecond : replace_dep (removeOlds depends old).1 old (some n) append
          = .ok ((removeOlds depends old).1, .unchanged) := by
        by_cases hap : append = true
        · have hnin : n ∈ (removeOlds depends old).1 := by
            by_contra hnin
            exact hc ⟨by simp [hap], hnin⟩
          simp [replace_dep, hid1, hnin, hap]
        · have hap' : append = false := by simpa using hap
          subst hap'
          simp [replace_dep, hid1]
      exact ⟨_, s, hs1, .unchanged, hsecond⟩

/-- C4 witness: the replacement scenario applied twice. -/
theorem replace_dep_idempotent_witness :
    ∃ r s, replace_dep scenarioDepends [str "pytest >=7.2.2"]
        (some (str "pytest >=7.0.0")) false = .ok (r, s) ∧
      ∃ t, replace_dep r [str "pytest >=7.2.2"]
          (some (str "pytest >=7.0.0")) false = .ok (r, t) :=
  replace_dep_idempotent scenarioDepends _ _ _ (by decide) (by decide)

/-
Claim C5: append with a null replacement fails fast.
-/

/-- C5: replace_dep(depends, old, None, append=True) raises the TypeError
before the removal loop runs, for every depends and old; no modified list
is produced, so depends is left as it was. -/
theorem replace_dep_append_none_error (depends old : List Str) :
    replace_dep depends old none true = .error "Forbidden to append None to dependencies" := by
  simp [replace_dep]

/-
Claim C6: is_revoked and is_removed.
-/

/-- C6: is_revoked holds exactly when the filename matches at least one
glob pattern in the union of the per-subdir revoked list and the "any"
list, and is_removed satisfies the same property over the removal lists;
the final two conjuncts witness that the matching is case-sensitive. -/
theorem is_revoked_is_removed_glob_union :
    (∀ (REVOKED : Str → List Str) (fn subdir : Str),
      is_revoked REVOKED fn subdir = true ↔
        ∃ p ∈ REVOKED subdir ++ REVOKED (str "any"), fnmatchB fn p = true) ∧
    (∀ (REMOVALS : Str → List Str) (fn subdir : Str),
      is_removed REMOVALS fn subdir = true ↔
        ∃ p ∈ REMOVALS subdir ++ REMOVALS (str "any"), fnmatchB fn p = true) ∧
    fnmatchB (str "numpy-1.0-0.tar.bz2") (str "numpy-*") = true ∧
    fnmatchB (str "NUMPY-1.0-0.tar.bz2") (str "numpy-*") = false := by
  refine ⟨?_, ?_, by decide, by decide⟩
  · intro RV fn subdir
    simp only [is_revoked, Bool.or_eq_true, List.any_eq_true, List.mem_append]
    constructor
    · rintro (⟨p, hp, hm⟩ | ⟨p, hp, hm⟩)
      · exact ⟨p, Or.inl hp, hm⟩
      · exact ⟨p, Or.inr hp, hm⟩
    · rintro ⟨p, hp | hp, hm⟩
      · exact Or.inl ⟨p, hp, hm⟩
      · exact Or.inr ⟨p, hp, hm⟩
  · intro RM fn subdir
    simp only [is_removed, Bool.or_eq_true, List.any_eq_true, List.mem_append]
    constructor
    · rintro (⟨p, hp, hm⟩ | ⟨p, hp, hm⟩)
      · exact ⟨p, Or.inl hp, hm⟩
      · exact ⟨p, Or.inr hp, hm⟩
    · rintro ⟨p, hp | hp, hm⟩
      · exact Or.inl ⟨p, hp, hm⟩
      · exact Or.inr ⟨p, hp, hm⟩

/-
Claim C10: the rename helper of r.py and pro.py skips a match at index 0.
-/

/-- C10: when the first dependency (list index 0) matches old_name and no
later dependency does, the `if dep_idx:` truthiness guard treats the index
0 as false, so rename_dependency leaves the depends list unchanged and
writes no instruction. -/
theorem rename_dependency_skips_index_zero (d : Str) (rest : List Str)
    (old_name new_name : Str)
    (h0 : (splitChar ' ' d).headD [] = old_name)
    (honly : ∀ x ∈ rest, (splitChar ' ' x).headD [] ≠ old_name) :
    rename_dependency (d :: rest) old_name new_name = (d :: rest, false) := by
  simp only [List.headD_eq_head?_getD] at h0
  simp [rename_dependency, firstMatchIdx, h0]

/-- C10 witness: a record whose only matching dependency sits at index 0. -/
theorem rename_dependency_skips_index_zero_witness :
    rename_dependency [str "numpy 1.11.3", str "python >=3.6"] (str "numpy") (str "numpy-base")
      = ([str "numpy 1.11.3", str "python >=3.6"], false) :=
  rename_dependency_skips_index_zero _ _ _ _ (by decide) (by decide)

/-
Claim C7: the cross-record numpy-base constraint rule.
-/

/-- C7 counterexample: when the base record already carries a constrains
key, the rule is a no-op and writes nothing, although the claim requires a
constraint write whenever the base filename resolves in the index. -/
theorem fix_numpy_base_constrains_existing_noop :
    _fix_numpy_base_constrains
      { name := str "numpy", version := str "1.2.3", build := str "build7",
        build_number := 0, depends := [str "numpy-base 1.2.3 build7"] }
      [(str "numpy-base-1.2.3-build7.tar.bz2",
        { name := str "numpy-base", version := str "1.2.3", build := str "build7",
          build_number := 0, depends := [], constrains := some [] })]
      (str "linux-64")
      (fun _ => [str "numpy-base-1.2.3-build7.tar.bz2"])
      = none ∧
    some (str "numpy-base-1.2.3-build7.tar.bz2", [str "numpy 1.2.3"])
      ≠ (none : Option (Str × List Str)) :=
  ⟨rfl, by decide⟩

/-- C7 (amended): for a numpy record whose first numpy-base dependency is
pinned to exactly name, version and build: if the derived base filename
does not resolve in the index the rule is a silent no-op; if it resolves
to a base record with no constrains key, the rule writes exactly one
constraint on the base entry — name and version only when the filename is
in the loose-pin list of the subdir, and name, version and build
otherwise.  (The original claim misses that a base record already holding
a constrains key also makes the rule a no-op.) -/
theorem fix_numpy_base_constrains_spec (record : PackageRecord)
    (index : List (Str × PackageRecord)) (subdir : Str) (pin : Str → List Str)
    (bp nm ver bld : Str)
    (hname : record.name = str "numpy")
    (hhead : (record.depends.filter (fun d => (str "numpy-base").isPrefixOf d)).head? = some bp)
    (hsplit : pySplit bp = [nm, ver, bld]) :
    (index.lookup (nm ++ str "-" ++ ver ++ str "-" ++ bld ++ str ".tar.bz2") = none →
      _fix_numpy_base_constrains record index subdir pin = none) ∧
    (∀ baseRec,
      index.lookup (nm ++ str "-" ++ ver ++ str "-" ++ bld ++ str ".tar.bz2") = some baseRec →
      baseRec.constrains = none →
      _fix_numpy_base_constrains record index subdir pin =
        some (nm ++ str "-" ++ ver ++ str "-" ++ bld ++ str ".tar.bz2",
          [if (nm ++ str "-" ++ ver ++ str "-" ++ bld ++ str ".tar.bz2") ∈ pin subdir
           then record.name ++ str " " ++ record.version
           else record.name ++ str " " ++ record.version ++ str " " ++ record.build])) := by
  constructor
  · intro hnone
    simp only [_fix_numpy_base_constrains, hhead, hsplit, hnone]
  · intro baseRec hlk hcon
    simp only [_fix_numpy_base_constrains, hhead, hsplit, hlk, hcon, Option.isSome_none,
      Bool.false_eq_true, if_false]
    by_cases hp : (nm ++ str "-" ++ ver ++ str "-" ++ bld ++ str ".tar.bz2") ∈ pin subdir
    · rw [if_pos hp, if_pos hp]
    · rw [if_neg hp, if_neg hp]

/-- C7 witness: the loose-pin scenario of the spec — the write is the
name-and-version constraint, not name-version-build — plus the silent
no-op on an index missing the base filename. -/
theorem fix_numpy_base_constrains_spec_witness :
    _fix_numpy_base_constrains
      { name := str "numpy", version := str "1.2.3", build := str "build7",
        build_number := 0, depends := [str "numpy-base 1.2.3 build7"] }
      [(str "numpy-base-1.2.3-build7.tar.bz2",
        { name := str "numpy-base", version := str "1.2.3", build := str "build7",
          build_number := 0, depends := [] })]
      (str "linux-64")
      (fun _ => [str "numpy-base-1.2.3-build7.tar.bz2"])
      = some (str "numpy-base-1.2.3-build7.tar.bz2", [str "numpy 1.2.3"]) ∧
    _fix_numpy_base_constrains
      { name := str "numpy", version := str "1.2.3", build := str "build7",
        build_number := 0, depends := [str "numpy-base 1.2.3 build7"] }
      [] (str "linux-64") (fun _ => [str "numpy-base-1.2.3-build7.tar.bz2"])
      = none := by
  constructor
  · have h := (fix_numpy_base_constrains_spec
      { name := str "numpy", version := str "1.2.3", build := str "build7",
        build_number := 0, depends := [str "numpy-base 1.2.3 build7"] }
      [(str "numpy-base-1.2.3-build7.tar.bz2",
        { name := str "numpy-base", version := str "1.2.3", build := str "build7",
          build_number := 0, depends := [] })]
      (str "linux-64")
      (fun _ => [str "numpy-base-1.2.3-build7.tar.bz2"])
      (str "numpy-base 1.2.3 build7") (str "numpy-base") (str "1.2.3") (str "build7")
      rfl rfl rfl).2
      { name := str "numpy-base", version := str "1.2.3", build := str "build7",
        build_number := 0, depends := [] }
      rfl rfl
    exact h.trans (by decide)
  · have h := (fix_numpy_base_constrains_spec
      { name := str "numpy", version := str "1.2.3", build := str "build7",
        build_number := 0, depends := [str "numpy-base 1.2.3 build7"] }
      [] (str "linux-64") (fun _ => [str "numpy-base-1.2.3-build7.tar.bz2"])
      (str "numpy-base 1.2.3 build7") (str "numpy-base") (str "1.2.3") (str "build7")
      rfl rfl rfl).1 rfl
    exact h

/-
Claim C9: the hard-failure cases of record patching.
-/

/-- C9 counterexample: a malformed bare "mkl" dependency makes the
anaconda 5.3.0 mkl block raise an IndexError (i.split()[1] on a one-token
entry) although the record does not have multiple mkl-2019 entries — an
exception outside the two documented invariant-violation cases, so the
engine does not raise in exactly those cases. -/
theorem anaconda_mkl_malformed_dep_raises :
    anaconda_mkl_fix (str "anaconda") (str "5.3.0") [str "mkl"]
      = .error "IndexError: list index out of range" := rfl

/-- C9 (amended): the documented invariant-violation failures do hold and
propagate: (1) an anaconda 5.3.0 or 5.3.1 record whose well-formed
mkl-2019 entries number more than one raises the multiple-mkl error;
(2) on a non-Windows subdir a cudnn dependency matching none of the known
rewrite shapes raises the unknown-cudnn error; (3) on a Windows subdir the
cudnn fix never raises that error; (4) patch_record propagates any
exception of the in-place rule catalog unswallowed.  (Unlike the claim,
these are not the only raising inputs: malformed dependency strings can
raise too, see the counterexample.) -/
theorem invariant_violation_failures :
    (∀ (version : Str) (depends entries : List Str),
      (version = str "5.3.0" ∨ version = str "5.3.1") →
      mklEntries depends = .ok entries → 1 < entries.length →
      anaconda_mkl_fix (str "anaconda") version depends
        = .error "Found multiple mkl entries, expected only 1.") ∧
    (∀ (depends : List Str) (subdir o : Str),
      ¬(str "win-").isPrefixOf subdir = true →
      lastStartingWith (str "cudnn") depends = some o →
      ¬(str "cudnn 7.0").isPrefixOf o = true →
      ¬(str "cudnn 7.1.*").isPrefixOf o = true →
      ¬(str "cudnn 7.2.*").isPrefixOf o = true →
      ¬(str "cudnn 7*").isPrefixOf o = true →
      ¬(str "cudnn 7.*").isPrefixOf o = true →
      o ≠ str "cudnn 7.3.*" →
      _fix_cudnn_depends depends subdir = .error "unknown cudnn depedency") ∧
    (∀ (depends : List Str) (subdir o : Str),
      (str "win-").isPrefixOf subdir = true →
      lastStartingWith (str "cudnn") depends = some o →
      _fix_cudnn_depends depends subdir
        = .ok (replaceFirst depends o (str "cudnn >=7.1.4,<8.0a0"))) ∧
    (∀ (inPlace : Str → PackageRecord → Str → Except String PackageRecord)
       (loosePin : Str → List Str) (fn : Str) (record : PackageRecord) (subdir : Str)
       (index : List (Str × PackageRecord)) (e : String),
      inPlace fn record subdir = .error e →
      patch_record inPlace loosePin fn record subdir index = .error e) := by
  refine ⟨?_, ?_, ?_, ?_⟩
  · intro version depends entries hv hmkl hlen
    have h1 : entries.length ≠ 1 := by omega
    rcases hv with rfl | rfl <;> simp [anaconda_mkl_fix, hmkl, h1, hlen]
  · intro depends subdir o hwin ho h1 h2 h3 h4 h5 hne
    simp only [_fix_cudnn_depends, ho]
    simp [hwin, h1, h2, h3, h4, h5, hne]
  · intro depends subdir o hwin ho
    simp only [_fix_cudnn_depends, ho]
    simp [hwin]
  · intro inPlace loosePin fn record subdir index e herr
    simp [patch_record, herr]

/-- C9 witness: a two-entry mkl-2019 record raises the multiple-mkl error;
a cudnn 7.9 shape raises the unknown-cudnn error on linux-64 but is
rewritten on win-64; an erroring rule catalog aborts patch_record. -/
theorem invariant_violation_failures_witness :
    anaconda_mkl_fix (str "anaconda") (str "5.3.0")
        [str "mkl 2019.1 0", str "mkl 2019.3 7"]
      = .error "Found multiple mkl entries, expected only 1." ∧
    _fix_cudnn_depends [str "cudnn 7.9"] (str "linux-64")
      = .error "unknown cudnn depedency" ∧
    _fix_cudnn_depends [str "cudnn 7.9"] (str "win-64")
      = .ok (replaceFirst [str "cudnn 7.9"] (str "cudnn 7.9") (str "cudnn >=7.1.4,<8.0a0")) ∧
    patch_record (fun _ _ _ => .error "boom") (fun _ => [])
        (str "f.tar.bz2")
        { name := str "p", version := str "1", build := str "0",
          build_number := 0, depends := [] }
        (str "linux-64") []
      = .error "boom" :=
  ⟨invariant_violation_failures.1 (str "5.3.0") _ _ (Or.inl rfl) rfl (by decide),
   invariant_violation_failures.2.1 _ _ (str "cudnn 7.9") (by decide) rfl
     (by decide) (by decide) (by decide) (by decide) (by decide) (by decide),
   invariant_violation_failures.2.2.1 _ _ (str "cudnn 7.9") (by decide) rfl,
   invariant_violation_failures.2.2.2 _ _ _ _ _ _ _ rfl⟩

/-
Lemmas for the per-subdir pass with a rule catalog that matches nothing.
-/

theorem patch_record_diff_self (fn : Str) (r : PackageRecord) :
    patch_record_diff fn r r = [] := by
  simp [patch_record_diff, keys_to_check]

theorem patch_record_noRule (loosePin : Str → List Str) (fn : Str) (record : PackageRecord)
    (subdir : Str) (index : List (Str × PackageRecord)) :
    patch_record noRuleInPlace loosePin fn record subdir index
      = .ok (patch_record_oneoffs fn record subdir (updateIndex index fn record) loosePin,
             record) := by
  simp [patch_record, noRuleInPlace, patch_record_diff_self]


theorem lookup_of_mem_nodup : ∀ (index : List (Str × PackageRecord)) (fn : Str)
    (r : PackageRecord), (index.map Prod.fst).Nodup → (fn, r) ∈ index →
    index.lookup fn = some r
  | [], _, _, _, h => absurd h (List.not_mem_nil _)
  | (k, v) :: t, fn, r, hnd, hmem => by
    rcases List.mem_cons.mp hmem with heq | htail
    · injection heq with h1 h2
      subst h1
      subst h2
      simp [List.lookup]
    · by_cases hkf : k = fn
      · exfalso
        subst hkf
        have hin : k ∈ t.map Prod.fst := List.mem_map.mpr ⟨(k, r), htail, rfl⟩
        have hhd : k ∉ t.map Prod.fst := (List.nodup_cons.mp (by simpa using hnd)).1
        exact hhd hin
      · have hk : (fn == k) = false := by
          simp only [beq_eq_false_iff_ne, ne_eq]
          exact fun e => hkf e.symm
        simp only [List.lookup, hk]
        exact lookup_of_mem_nodup t fn r (List.nodup_cons.mp (by simpa using hnd)).2 htail

theorem updateIndex_not_mem : ∀ (index : List (Str × PackageRecord)) (fn : Str)
    (r : PackageRecord), fn ∉ index.map Prod.fst → updateIndex index fn r = index
  | [], _, _, _ => rfl
  | (k, v) :: t, fn, r, h => by
    have hk : ¬(k = fn) := by
      intro e
      subst e
      exact h (by simp)
    have ht : fn ∉ t.map Prod.fst := fun hm => h (by simp [hm])
    unfold updateIndex
    rw [List.map_cons]
    have hhead : (if ((k, v) : Str × PackageRecord).1 = fn
        then (((k, v) : Str × PackageRecord).1, r) else (k, v)) = (k, v) := if_neg hk
    rw [hhead]
    have htail := updateIndex_not_mem t fn r ht
    unfold updateIndex at htail
    rw [htail]

theorem updateIndex_self : ∀ (index : List (Str × PackageRecord)) (fn : Str)
    (r : PackageRecord), (index.map Prod.fst).Nodup → (fn, r) ∈ index →
    updateIndex index fn r = index
  | [], _, _, _, h => absurd h (List.not_mem_nil _)
  | (k, v) :: t, fn, r, hnd, hmem => by
    rcases List.mem_cons.mp hmem with heq | htail
    · injection heq with h1 h2
      subst h1
      subst h2
      have hk : fn ∉ t.map Prod.fst := (List.nodup_cons.mp (by simpa using hnd)).1
      unfold updateIndex
      rw [List.map_cons]
      have hhead : (if ((fn, r) : Str × PackageRecord).1 = fn
          then (((fn, r) : Str × PackageRecord).1, r) else (fn, r)) = (fn, r) := if_pos rfl
      rw [hhead]
      have htail := updateIndex_not_mem t fn r hk
      unfold updateIndex at htail
      rw [htail]
    · by_cases hkf : k = fn
      · exfalso
        subst hkf
        have hin : k ∈ t.map Prod.fst := List.mem_map.mpr ⟨(k, r), htail, rfl⟩
        have hhd : k ∉ t.map Prod.fst := (List.nodup_cons.mp (by simpa using hnd)).1
        exact hhd hin
      · unfold updateIndex
        rw [List.map_cons]
        have hhead : (if ((k, v) : Str × PackageRecord).1 = fn
            then (((k, v) : Str × PackageRecord).1, r) else (k, v)) = (k, v) := if_neg hkf
        rw [hhead]
        have htl := updateIndex_self t fn r (List.nodup_cons.mp (by simpa using hnd)).2 htail
        unfold updateIndex at htl
        rw [htl]

theorem fix_numpy_some (record : PackageRecord) (index : List (Str × PackageRecord))
    (subdir : Str) (pin : Str → List Str) (bfn : Str) (cs : List Str)
    (h : _fix_numpy_base_constrains record index subdir pin = some (bfn, cs)) :
    ∃ baseRec, index.lookup bfn = some baseRec ∧ baseRec.constrains = none := by
  unfold _fix_numpy_base_constrains at h
  cases h1 : (record.depends.filter (fun d => (str "numpy-base").isPrefixOf d)).head? with
  | none =>
    simp only [h1] at h
    exact Option.noConfusion h
  | some bp =>
    simp only [h1] at h
    rcases h2 : pySplit bp with _ | ⟨nm, _ | ⟨ver, _ | ⟨bld, _ | ⟨x, xs⟩⟩⟩⟩ <;>
      simp only [h2] at h <;>
      try exact Option.noConfusion h
    cases h3 : index.lookup (nm ++ str "-" ++ ver ++ str "-" ++ bld ++ str ".tar.bz2") with
    | none =>
      simp only [h3] at h
      exact Option.noConfusion h
    | some baseRec =>
      simp only [h3] at h
      by_cases h4 : baseRec.constrains.isSome = true
      · rw [if_pos h4] at h
        cases h
      · have h4' : baseRec.constrains = none := Option.not_isSome_iff_eq_none.mp h4
        rw [if_neg h4] at h
        refine ⟨baseRec, ?_, h4'⟩
        by_cases h5 : (nm ++ str "-" ++ ver ++ str "-" ++ bld ++ str ".tar.bz2") ∈ pin subdir
        · rw [if_pos h5] at h
          simp only [Option.some.injEq, Prod.mk.injEq] at h
          rw [← h.1]
          exact h3
        · rw [if_neg h5] at h
          simp only [Option.some.injEq, Prod.mk.injEq] at h
          rw [← h.1]
          exact h3

theorem ns_writes (fn : Str) (record : PackageRecord) (index : List (Str × PackageRecord))
    (hlk : index.lookup fn = some record) :
    ∀ w ∈ _apply_namespace_overrides fn record,
      (∃ r, index.lookup w.1 = some r ∧ w.2.2 ≠ getField r w.2.1) ∨
      w.2.1 = "namespace" ∨
      (w.2.1 = "build_number" ∧ w.1 = str "blas-1.0-openblas.tar.bz2") := by
  intro w hw
  unfold _apply_namespace_overrides at hw
  rcases List.mem_append.mp hw with hw1 | hw2
  · by_cases hcond : record.name ∈ namespace_in_name_set ∧ record.namespace_in_name ≠ some true
    · rw [if_pos hcond] at hw1
      have hw1' := List.mem_singleton.mp hw1
      subst hw1'
      left
      refine ⟨record, hlk, ?_⟩
      show some (FieldVal.b true) ≠ getField record "namespace_in_name"
      have hgf : getField record "namespace_in_name" = record.namespace_in_name.map FieldVal.b := rfl
      rw [hgf]
      rcases hnn : record.namespace_in_name with _ | b
      · simp
      · cases b with
        | false => simp
        | true => exact absurd hnn hcond.2
    · rw [if_neg hcond] at hw1
      exact absurd hw1 (List.not_mem_nil w)
  · cases hm : namespace_overrides.lookup record.name with
    | none =>
      rw [hm] at hw2
      exact absurd hw2 (List.not_mem_nil w)
    | some v =>
      rw [hm] at hw2
      have hw2' := List.mem_singleton.mp hw2
      subst hw2'
      right
      left
      rfl

theorem oneoffs_writes (fn : Str) (record : PackageRecord) (subdir : Str)
    (index : List (Str × PackageRecord)) (loosePin : Str → List Str)
    (hlk : index.lookup fn = some record) :
    ∀ w ∈ patch_record_oneoffs fn record subdir index loosePin,
      (∃ r, index.lookup w.1 = some r ∧ w.2.2 ≠ getField r w.2.1) ∨
      w.2.1 = "namespace" ∨
      (w.2.1 = "build_number" ∧ w.1 = str "blas-1.0-openblas.tar.bz2") := by
  intro w hw
  unfold patch_record_oneoffs at hw
  rcases List.mem_append.mp hw with hw12 | hw3
  · rcases List.mem_append.mp hw12 with hw1 | hw2
    · by_cases hn : record.name = str "numpy"
      · rw [if_pos hn] at hw1
        cases hfix : _fix_numpy_base_constrains record index subdir loosePin with
        | none =>
          rw [hfix] at hw1
          exact absurd hw1 (List.not_mem_nil w)
        | some bc =>
          obtain ⟨bfn, cs⟩ := bc
          rw [hfix] at hw1
          have hw1' := List.mem_singleton.mp hw1
          subst hw1'
          left
          obtain ⟨baseRec, hblk, hbcon⟩ := fix_numpy_some record index subdir loosePin bfn cs hfix
          refine ⟨baseRec, hblk, ?_⟩
          show some (FieldVal.sl cs) ≠ getField baseRec "constrains"
          have hgf : getField baseRec "constrains" = baseRec.constrains.map FieldVal.sl := rfl
          rw [hgf, hbcon]
          simp
      · rw [if_neg hn] at hw1
        exact absurd hw1 (List.not_mem_nil w)
    · by_cases ht : (str "numba-0.36.1").isPrefixOf fn = true ∧
          record.timestamp ≠ some 1512604800000
      · rw [if_pos ht] at hw2
        have hw2' := List.mem_singleton.mp hw2
        subst hw2'
        left
        refine ⟨record, hlk, ?_⟩
        show some (FieldVal.n 1512604800000) ≠ getField record "timestamp"
        have hgf : getField record "timestamp" = record.timestamp.map FieldVal.n := rfl
        rw [hgf]
        rcases hts : record.timestamp with _ | t
        · simp
        · have htc : t ≠ 1512604800000 := by
            intro e
            exact ht.2 (by rw [hts, e])
          simp only [ne_eq, Option.map_some', Option.some.injEq, FieldVal.n.injEq]
          exact fun e => htc e.symm
      · rw [if_neg ht] at hw2
        exact absurd hw2 (List.not_mem_nil w)
  · by_cases hb : subdir = str "linux-ppc64le" ∧ fn = str "blas-1.0-openblas.tar.bz2"
    · rw [if_pos hb] at hw3
      have hw3' := List.mem_singleton.mp hw3
      subst hw3'
      right
      right
      exact ⟨rfl, hb.2⟩
    · rw [if_neg hb] at hw3
      exact absurd hw3 (List.not_mem_nil w)

theorem patchRepodataGo_noRule_writes (RV RM loosePin : Str → List Str) (subdir : Str) :
    ∀ (rest index : List (Str × PackageRecord)),
      (index.map Prod.fst).Nodup →
      (∀ p ∈ rest, p ∈ index) →
      ∀ ws rv rm,
        patchRepodataGo noRuleInPlace RV RM loosePin subdir index rest = .ok (ws, rv, rm) →
        ∀ w ∈ ws,
          (∃ r, index.lookup w.1 = some r ∧ w.2.2 ≠ getField r w.2.1) ∨
          w.2.1 = "namespace" ∨
          (w.2.1 = "build_number" ∧ w.1 = str "blas-1.0-openblas.tar.bz2")
  | [], index, _, _, ws, rv, rm, hgo, w, hw => by
    simp only [patchRepodataGo, Except.ok.injEq, Prod.mk.injEq] at hgo
    obtain ⟨h1, _, _⟩ := hgo
    subst h1
    exact absurd hw (List.not_mem_nil w)
  | (fn, record) :: rest, index, hnd, hsub, ws, rv, rm, hgo, w, hw => by
    have hmem : (fn, record) ∈ index := hsub _ (List.mem_cons_self _ _)
    have hupd : updateIndex index fn record = index := updateIndex_self index fn record hnd hmem
    have hlk : index.lookup fn = some record := lookup_of_mem_nodup index fn record hnd hmem
    simp only [patchRepodataGo, patch_record_noRule, hupd] at hgo
    cases hrec : patchRepodataGo noRuleInPlace RV RM loosePin subdir index rest with
    | error e =>
      rw [hrec] at hgo
      exact Except.noConfusion hgo
    | ok out =>
      obtain ⟨ws2, rv2, rm2⟩ := out
      rw [hrec] at hgo
      simp only [Except.ok.injEq, Prod.mk.injEq] at hgo
      obtain ⟨hws, _, _⟩ := hgo
      subst hws
      rcases List.mem_append.mp hw with hw12 | hwrec
      · rcases List.mem_append.mp hw12 with hwns | hwoo
        · exact ns_writes fn record index hlk w hwns
        · exact oneoffs_writes fn record subdir index loosePin hlk w hwoo
      · exact patchRepodataGo_noRule_writes RV RM loosePin subdir rest index hnd
          (fun p hp => hsub p (List.mem_cons_of_mem _ hp)) ws2 rv2 rm2 hrec w hwrec

/-
Claim C8: minimality of the patch-instruction entries.
-/

/-- C8 counterexample: a boost record whose namespace is already "python"
and which no rule of the catalog touches still receives a packages entry,
written unconditionally by the namespace-override rule, whose only field
equals the value in the original record — so a filename can appear in the
partial-record mapping with no field differing from the original. -/
theorem patch_instructions_minimality_violated :
    _patch_repodata noRuleInPlace (fun _ => []) (fun _ => []) (fun _ => [])
      [(str "boost-1.0-0.tar.bz2",
        { name := str "boost", version := str "1.0", build := str "0",
          build_number := 0, depends := [],
          subdir := some (str "linux-64"), namespace_field := some (str "python") })]
      (str "linux-64")
      = .ok ⟨[(str "boost-1.0-0.tar.bz2", "namespace", some (FieldVal.s (str "python")))],
             [], [], false⟩ ∧
    getField
      { name := str "boost", version := str "1.0", build := str "0",
        build_number := 0, depends := [],
        subdir := some (str "linux-64"), namespace_field := some (str "python") }
      "namespace" = some (FieldVal.s (str "python")) :=
  ⟨rfl, rfl⟩

/-- C8 (amended): in a full per-subdir pass in which the rule catalog
leaves every record unchanged (no rule matches), every write into the
packages mapping either assigns a value different from the one the
original record held for that key, or comes from one of the two writers
that assign their fixed value unconditionally: the namespace override and
the linux-ppc64le blas-1.0-openblas build_number fix. -/
theorem patch_instructions_minimality_amended
    (RV RM loosePin : Str → List Str) (index : List (Str × PackageRecord))
    (subdir : Str) (instr : PatchInstructions)
    (hnd : (index.map Prod.fst).Nodup)
    (hrun : _patch_repodata noRuleInPlace RV RM loosePin index subdir = .ok instr) :
    ∀ w ∈ instr.packages,
      (∃ r, index.lookup w.1 = some r ∧ w.2.2 ≠ getField r w.2.1) ∨
      w.2.1 = "namespace" ∨
      (w.2.1 = "build_number" ∧ w.1 = str "blas-1.0-openblas.tar.bz2") := by
  intro w hw
  unfold _patch_repodata at hrun
  cases hgo : patchRepodataGo noRuleInPlace RV RM loosePin subdir index index with
  | error e =>
    rw [hgo] at hrun
    exact Except.noConfusion hrun
  | ok out =>
    obtain ⟨ws, rv, rm⟩ := out
    simp only [hgo, Except.ok.injEq] at hrun
    subst hrun
    exact patchRepodataGo_noRule_writes RV RM loosePin subdir index index hnd
      (fun p hp => hp) ws rv rm hgo w hw

/-- C8 witness: the single write the pass produces for a boost record with
no namespace field satisfies the amended property. -/
theorem patch_instructions_minimality_amended_witness :
    (∃ r, List.lookup (str "boost-1.0-0.tar.bz2")
        [(str "boost-1.0-0.tar.bz2",
          ({ name := str "boost", version := str "1.0", build := str "0",
             build_number := 0, depends := [],
             subdir := some (str "linux-64") } : PackageRecord))] = some r ∧
      some (FieldVal.s (str "python")) ≠ getField r "namespace") ∨
    ("namespace" : String) = "namespace" ∨
    (("namespace" : String) = "build_number" ∧
      str "boost-1.0-0.tar.bz2" = str "blas-1.0-openblas.tar.bz2") :=
  patch_instructions_minimality_amended (fun _ => []) (fun _ => []) (fun _ => [])
    [(str "boost-1.0-0.tar.bz2",
      { name := str "boost", version := str "1.0", build := str "0",
        build_number := 0, depends := [],
        subdir := some (str "linux-64") })]
    (str "linux-64")
    ⟨[(str "boost-1.0-0.tar.bz2", "namespace", some (FieldVal.s (str "python")))],
     [], [], false⟩
    (by decide) rfl
    (str "boost-1.0-0.tar.bz2", "namespace", some (FieldVal.s (str "python")))
    (by decide)
